import Mathlib

/-!
Verification of the rotor-based substitution-cipher engine (Enigma-style)
of this repository.

The engine lives in `enigma.js`.  The file itself is not part of the
sources available here, but large parts of it are pinned verbatim by the
repository: `src/6/fix.md` quotes the full fixed `Enigma.encryptChar`
method, and the unit-test suite (`src/unnamed/part_004`) pins the Rotor
constructor, the wiring of Rotor I (`EKMFLGDQVZNTOWYHXUSPAIBRCJ`), the
notches `Q` and `V`, the behaviour of `step`, `atNotch`, `forward`,
`backward`, and two complete ciphertext fixtures
(`HELLOWORLD -> VDACACJJEA` after the plugboard fix, and the before-fix
string `VDACACJJRA` recorded in `src/6/fix.md`).  Parts of the engine
that are not quoted anywhere are modelled from the specification; each
such definition carries a doc comment starting `Modelled from the spec:`.
The two fixtures pin the rotor offset arithmetic exactly: the variant
embedded below reproduces both strings, and the alternative reading of
§4.2 (with an extra exit offset) reproduces neither.

Characters are modelled as Lean `Char`, strings as `List Char`, JS
numbers as `Int`.  The JS remainder operator `%` is truncated division
remainder, i.e. `Int.tmod`; the helper `mod(n, m) = ((n % m) + m) % m`
used by the engine is embedded as `jsmod` below.  JS `string.indexOf`
(which returns `-1` when the character is absent) is `jsIndexOf`, and JS
string indexing (which yields `undefined`, a value equal to no
character, when out of range) is `jsCharAt` with an out-of-range default
`Char.ofNat 0`, a character that occurs in no table.
-/

/-- The fixed 26-letter alphabet `ABCDEFGHIJKLMNOPQRSTUVWXYZ` of the engine. -/
def alphabet : List Char := "ABCDEFGHIJKLMNOPQRSTUVWXYZ".toList

/-- The lowercase ASCII letters; used only to state which characters count
as ASCII letters in the claims. -/
def lowerAlphabet : List Char := "abcdefghijklmnopqrstuvwxyz".toList

/-- A character is an ASCII letter when it is an uppercase or lowercase
ASCII letter. -/
def isAsciiLetter (c : Char) : Prop := c ∈ alphabet ∨ c ∈ lowerAlphabet

instance (c : Char) : Decidable (isAsciiLetter c) := by
  unfold isAsciiLetter; infer_instance

/-- The JS helper `mod(n, m) = ((n % m) + m) % m`; JS `%` is the truncated
remainder `Int.tmod`. -/
def jsmod (n m : Int) : Int := (n.tmod m + m).tmod m

/-- JS `s.indexOf(c)` on a string: the index of the first occurrence of
`c`, and `-1` when `c` does not occur. -/
def jsIndexOf (s : List Char) (c : Char) : Int :=
  if c ∈ s then (s.indexOf c : Int) else -1

/-- JS `s[i]` on a string: the character at index `i`; out-of-range access
yields `undefined`, modelled by the default `Char.ofNat 0`, a character
that occurs in no wiring table and is no notch letter. -/
def jsCharAt (s : List Char) (i : Int) : Char :=
  if 0 ≤ i then s.getD i.toNat (Char.ofNat 0) else Char.ofNat 0

/-- Modelled from the spec: the fixed historical rotor catalog (spec §6:
three identifiers select wiring tables from a fixed historical catalog,
indices 0 - 2 being Rotor I/II/III; §9 fixes the catalog as enumerated
constants).  `enigma.js` is absent from the sources; the wiring of
Rotor I and the notches `Q` (Rotor I) and `V` (Rotor III) are pinned
verbatim by the unit tests, and the remaining entries are the historical
Enigma I tables, the unique catalog consistent with the two ciphertext
fixtures locked in `src/6/fix.md` and the test suite. -/
def ROTORS : List (List Char × Char) :=
  [("EKMFLGDQVZNTOWYHXUSPAIBRCJ".toList, 'Q'),
   ("AJDKSIRUXBLHWTMCQGZNPYFVOE".toList, 'E'),
   ("BDFHJLCPRTXVZNYEIWGAKMUSQO".toList, 'V')]

/-- Modelled from the spec: the fixed reflector table (spec §4.4: a fixed
involutive table with no self-mapping).  `enigma.js` is absent from the
sources; this is the historical Enigma I reflector B, the table
consistent with the ciphertext fixtures locked in `src/6/fix.md` and the
test suite. -/
def REFLECTOR : List Char := "YRUHQSLDPXNGOKMIEBFZCWVJAT".toList

/-- Modelled from the spec: `plugboardSwap(c, pairs)` (spec §4.1: returns
the paired letter if `c` appears in any pair, else `c` unchanged).
`enigma.js` is absent from the sources; the behaviour is pinned by the
unit tests on empty, single and multiple pair lists. -/
def plugboardSwap (c : Char) : List (Char × Char) → Char
  | [] => c
  | (a, b) :: rest => if c = a then b else if c = b then a else plugboardSwap c rest

/-- One rotor: wiring permutation, notch letter, ring setting and current
position, exactly the four fields the Rotor constructor assigns in the
unit tests (`new Rotor(wiring, notch, ringSetting, position)`). -/
structure Rotor where
  wiring : List Char
  notch : Char
  ringSetting : Int
  position : Int
deriving Repr, DecidableEq

/-- Modelled from the spec: `Rotor.step` (spec §4.2:
`position = (position + 1) mod 26`); pinned by the unit tests, including
the wrap from 25 to 0. -/
def Rotor.step (r : Rotor) : Rotor :=
  { r with position := jsmod (r.position + 1) 26 }

/-- Modelled from the spec: `Rotor.atNotch` (spec §4.2: true iff the
current position equals the configured notch index); the unit tests pin
the positional comparison `alphabet[position] === notch`. -/
def Rotor.atNotch (r : Rotor) : Bool :=
  jsCharAt alphabet r.position == r.notch

/-- Modelled from the spec: `Rotor.forward` (spec §4.2: look up the wiring
at `shifted = (index(letter) + position - ringSetting + 26) mod 26`).
`enigma.js` is absent from the sources; of the two readings of §4.2 the
one without an extra exit offset is embedded, because it alone reproduces
the ciphertext fixtures locked in `src/6/fix.md` and the test suite. -/
def Rotor.forward (r : Rotor) (c : Char) : Char :=
  jsCharAt r.wiring (jsmod (jsIndexOf alphabet c + r.position - r.ringSetting) 26)

/-- Modelled from the spec: `Rotor.backward` (spec §4.2: the same offset
constants used with the inverse of the wiring); the inverse lookup is
`wiring.indexOf`, and the offset is applied on the way back to the
alphabet, the reading pinned by the ciphertext fixtures. -/
def Rotor.backward (r : Rotor) (c : Char) : Char :=
  jsCharAt alphabet (jsmod (jsIndexOf r.wiring c - r.position + r.ringSetting) 26)

/-- The engine state: the three rotors left to right, and the plugboard
pairs.  Rotor positions are the only part mutated by processing. -/
structure Enigma where
  rotors : List Rotor
  plugboardPairs : List (Char × Char)
deriving Repr, DecidableEq

/-- Modelled from the spec: `Enigma.stepRotors` (spec §4.3: from the
pre-step notch states, `stepRight = true`, `stepLeft = middle.atNotch()`,
`stepMiddle = right.atNotch() OR middle.atNotch()`, all three applied
simultaneously).  `enigma.js` is absent from the sources; the test suite
pins that the right rotor always steps and that the middle rotor steps
when the right rotor is at its notch.  An engine whose rotor list does
not have exactly three rotors is left unchanged (the constructor always
builds three). -/
def Enigma.stepRotors (e : Enigma) : Enigma :=
  match e.rotors with
  | [l, m, r] =>
    let sl := m.atNotch
    let sm := r.atNotch || m.atNotch
    { e with rotors := [if sl then l.step else l, if sm then m.step else m, r.step] }
  | _ => e

/-- `Enigma.encryptChar`, translated line by line from the fixed method
quoted in `src/6/fix.md`: non-alphabet characters return unchanged with
no state change; otherwise step the rotors, apply the plugboard, the
rotor forward passes right to left, the reflector lookup
`REFLECTOR[alphabet.indexOf(c)]`, the rotor backward passes left to
right, and the plugboard a second time.  The mutated engine is returned
alongside the output character. -/
def Enigma.encryptChar (e : Enigma) (c : Char) : Char × Enigma :=
  if c ∈ alphabet then
    let e1 := e.stepRotors
    let c1 := plugboardSwap c e1.plugboardPairs
    let c2 := e1.rotors.foldr (fun r ch => r.forward ch) c1
    let c3 := jsCharAt REFLECTOR (jsIndexOf alphabet c2)
    let c4 := e1.rotors.foldl (fun ch r => r.backward ch) c3
    (plugboardSwap c4 e1.plugboardPairs, e1)
  else (c, e)

/-- Sequential mapping of `encryptChar` over a character list, threading
the mutated engine left to right. -/
def Enigma.processGo (e : Enigma) : List Char → List Char × Enigma
  | [] => ([], e)
  | c :: cs =>
    let first := e.encryptChar c
    let rest := first.2.processGo cs
    (first.1 :: rest.1, rest.2)

/-- Modelled from the spec: `Enigma.process` (spec §4.5: uppercase the
text, then map `encryptChar` over every character in sequence).
`enigma.js` is absent from the sources; the test suite pins the length
preservation, the pass-through of digits and the equality
`process("hello") = process("HELLO")`.  JS `toUpperCase` is modelled on
the ASCII range by `Char.toUpper`. -/
def Enigma.process (e : Enigma) (text : List Char) : List Char × Enigma :=
  e.processGo (text.map Char.toUpper)

/-- Modelled from the spec: the Enigma constructor (spec §6: the
configuration is three rotor identifiers into the catalog, three initial
positions, three ring settings and the plugboard pairs; the test suite
pins the argument order `new Enigma(rotorIDs, positions, rings, pairs)`
and that rotor `i` receives `ringSettings[i]` and `positions[i]`). -/
def mkEnigma (rotorIDs : List Nat) (rotorPositions ringSettings : List Int)
    (plugboardPairs : List (Char × Char)) : Enigma :=
  { rotors := rotorIDs.enum.map fun p =>
      { wiring := (ROTORS.getD p.2 ([], Char.ofNat 0)).1
        notch := (ROTORS.getD p.2 ([], Char.ofNat 0)).2
        ringSetting := ringSettings.getD p.1 0
        position := rotorPositions.getD p.1 0 }
    plugboardPairs := plugboardPairs }

/-- The letters used by a plugboard pair list, in order. -/
def pairLetters : List (Char × Char) → List Char
  | [] => []
  | (a, b) :: rest => a :: b :: pairLetters rest

/-- A valid plugboard pair list: no letter is used twice, and every
letter is an alphabet letter (spec §3: disjoint unordered letter
pairs). -/
def validPairs (pairs : List (Char × Char)) : Prop :=
  (pairLetters pairs).Nodup ∧ ∀ x ∈ pairLetters pairs, x ∈ alphabet

instance (pairs : List (Char × Char)) : Decidable (validPairs pairs) := by
  unfold validPairs; infer_instance

/-- A valid rotor: its wiring is a bijection of the alphabet, i.e. a
permutation of the 26 letters (spec §3). -/
def validRotor (r : Rotor) : Prop := r.wiring.Perm alphabet

/-- A valid engine: every rotor wiring is a permutation of the alphabet
and the plugboard pair list is valid. -/
def validEngine (e : Enigma) : Prop :=
  (∀ r ∈ e.rotors, validRotor r) ∧ validPairs e.plugboardPairs

instance (r : Rotor) : Decidable (validRotor r) := by
  unfold validRotor; infer_instance

instance (e : Enigma) : Decidable (validEngine e) := by
  unfold validEngine; infer_instance

/-! ### Spec-side decomposition of the per-letter pipeline (spec §4.4, §4.5) -/

/-- The rotor forward passes applied right to left, as in the first loop of
`encryptChar`. -/
def forwardPass (rs : List Rotor) (c : Char) : Char :=
  rs.foldr (fun r ch => r.forward ch) c

/-- The rotor backward passes applied left to right, as in the second loop
of `encryptChar`. -/
def backwardPass (rs : List Rotor) (c : Char) : Char :=
  rs.foldl (fun ch r => r.backward ch) c

/-- Modelled from the spec: `reflect(letter)` (spec §4.4: a fixed table
lookup); `encryptChar` inlines it as `REFLECTOR[alphabet.indexOf(c)]`. -/
def reflect (c : Char) : Char := jsCharAt REFLECTOR (jsIndexOf alphabet c)

/-- The per-letter substitution of spec §4.5 at a fixed rotor state:
plugboard, forward passes, reflector, backward passes, plugboard again. -/
def cipherMap (rs : List Rotor) (pairs : List (Char × Char)) (c : Char) : Char :=
  plugboardSwap (backwardPass rs (reflect (forwardPass rs (plugboardSwap c pairs)))) pairs

/-! ### Checked construction (spec §7) -/

/-- Modelled from the spec: the `ConfigurationError` variants of spec §7
(non-bijective rotor wiring, ring or position outside the range 0 - 25,
plugboard letter reuse, invalid reflector).  No construction-time
validation is visible in the sources; it is modelled from spec §7
verbatim. -/
inductive ConfigurationError where
  | invalidRotorWiring
  | settingOutOfRange
  | plugboardLetterReuse
  | invalidReflector
deriving Repr, DecidableEq

/-- Modelled from the spec: eagerly validated construction (spec §7: a
`ConfigurationError` is raised at construction for any of the four listed
defects, construction does not partially succeed, and per-character
processing never fails).  The checks run in the order the spec lists
them; on success the fully built engine of `mkEnigma` is returned. -/
def mkEnigmaChecked (rotorIDs : List Nat) (rotorPositions ringSettings : List Int)
    (plugboardPairs : List (Char × Char)) : Except ConfigurationError Enigma :=
  if ∀ id ∈ rotorIDs, (ROTORS.getD id ([], Char.ofNat 0)).1.Perm alphabet then
    if (∀ p ∈ rotorPositions, 0 ≤ p ∧ p ≤ 25) ∧
        (∀ rg ∈ ringSettings, 0 ≤ rg ∧ rg ≤ 25) then
      if (pairLetters plugboardPairs).Nodup then
        if ∀ c ∈ alphabet, reflect (reflect c) = c ∧ reflect c ≠ c then
          .ok (mkEnigma rotorIDs rotorPositions ringSettings plugboardPairs)
        else .error .invalidReflector
      else .error .plugboardLetterReuse
    else .error .settingOutOfRange
  else .error .invalidRotorWiring

/-! ### Shared concrete fixtures for witnesses and counterexamples -/

/-- The engine of the standard test configuration: rotors I, II, III, all
positions and ring settings zero, empty plugboard. -/
def testEngine : Enigma := mkEnigma [0, 1, 2] [0, 0, 0] [0, 0, 0] []

/-- Rotor I at ring setting 0 and position 0, as constructed in the unit
tests. -/
def rotorI : Rotor :=
  { wiring := "EKMFLGDQVZNTOWYHXUSPAIBRCJ".toList, notch := 'Q'
    ringSetting := 0, position := 0 }

set_option maxRecDepth 4000 in
example : (mkEnigma [0, 1, 2] [0, 0, 0] [0, 0, 0] [('Q', 'W'), ('E', 'R')]).process
    "HELLOWORLD".toList = ("VDACACJJEA".toList,
      mkEnigma [0, 1, 2] [0, 0, 10] [0, 0, 0] [('Q', 'W'), ('E', 'R')]) := by decide

/-! ### Arithmetic lemmas for the JS helpers -/

theorem tmod26_lower_bound (n : Int) : -26 < n.tmod 26 := by
  cases n with
  | ofNat k =>
    have h : (Int.ofNat k).tmod 26 = Int.ofNat (k % 26) := rfl
    have h2 : (0 : Int) ≤ Int.ofNat (k % 26) := Int.ofNat_nonneg _
    rw [h]; omega
  | negSucc k =>
    have h : (Int.negSucc k).tmod 26 = -Int.ofNat ((k + 1) % 26) := rfl
    have h2 : (k + 1) % 26 < 26 := Nat.mod_lt _ (by omega)
    have h3 : Int.ofNat ((k + 1) % 26) < Int.ofNat 26 := Int.ofNat_lt.mpr h2
    have h4 : Int.ofNat 26 = 26 := rfl
    rw [h4] at h3
    rw [h]; omega

theorem jsmod_eq_emod (n : Int) : jsmod n 26 = n % 26 := by
  unfold jsmod
  have h1 : -26 < n.tmod 26 := tmod26_lower_bound n
  have h2 : (0 : Int) ≤ n.tmod 26 + 26 := by omega
  rw [Int.tmod_eq_emod h2 (by omega)]
  rw [Int.tmod_def]
  have h3 : n - 26 * n.tdiv 26 + 26 = (n + 26) + 26 * (- n.tdiv 26) := by ring
  rw [h3, Int.add_mul_emod_self_left]
  omega

theorem jsmod_nonneg (n : Int) : 0 ≤ jsmod n 26 := by
  rw [jsmod_eq_emod]; exact Int.emod_nonneg n (by omega)

theorem jsmod_lt (n : Int) : jsmod n 26 < 26 := by
  rw [jsmod_eq_emod]; exact Int.emod_lt_of_pos n (by omega)

/-! ### Alphabet and lookup lemmas -/

theorem alphabet_nodup : alphabet.Nodup := by decide

theorem alphabet_length : alphabet.length = 26 := by decide

theorem jsCharAt_eq_getElem (s : List Char) (i : Int) (h0 : 0 ≤ i)
    (h1 : i.toNat < s.length) : jsCharAt s i = s[i.toNat] := by
  unfold jsCharAt
  rw [if_pos h0, List.getD_eq_getElem?_getD, List.getElem?_eq_getElem h1]
  rfl

theorem jsCharAt_mem (s : List Char) (i : Int) (h0 : 0 ≤ i)
    (h1 : i.toNat < s.length) : jsCharAt s i ∈ s := by
  rw [jsCharAt_eq_getElem s i h0 h1]
  exact List.getElem_mem h1

theorem jsIndexOf_of_mem (s : List Char) (c : Char) (hc : c ∈ s) :
    jsIndexOf s c = (s.indexOf c : Int) := by
  unfold jsIndexOf; rw [if_pos hc]

theorem indexOf_lt_of_mem (s : List Char) (c : Char) (hc : c ∈ s) :
    s.indexOf c < s.length := List.indexOf_lt_length.mpr hc

/-! ### Rotor round-trip lemmas -/

theorem validRotor_length {r : Rotor} (h : validRotor r) : r.wiring.length = 26 :=
  h.length_eq.trans alphabet_length

theorem validRotor_nodup {r : Rotor} (h : validRotor r) : r.wiring.Nodup :=
  h.nodup_iff.mpr alphabet_nodup

theorem validRotor_mem {r : Rotor} (h : validRotor r) {c : Char} :
    c ∈ r.wiring ↔ c ∈ alphabet := h.mem_iff

theorem Rotor.forward_mem (r : Rotor) (h : validRotor r) (c : Char) :
    r.forward c ∈ alphabet := by
  rw [← validRotor_mem h]
  unfold Rotor.forward
  apply jsCharAt_mem
  · exact jsmod_nonneg _
  · have h0 := jsmod_nonneg (jsIndexOf alphabet c + r.position - r.ringSetting)
    have h1 := jsmod_lt (jsIndexOf alphabet c + r.position - r.ringSetting)
    rw [validRotor_length h]
    omega

theorem Rotor.backward_mem (r : Rotor) (c : Char) : r.backward c ∈ alphabet := by
  unfold Rotor.backward
  apply jsCharAt_mem
  · exact jsmod_nonneg _
  · have h0 := jsmod_nonneg (jsIndexOf r.wiring c - r.position + r.ringSetting)
    have h1 := jsmod_lt (jsIndexOf r.wiring c - r.position + r.ringSetting)
    rw [alphabet_length]
    omega

theorem Rotor.backward_forward (r : Rotor) (h : validRotor r) (c : Char)
    (hc : c ∈ alphabet) : r.backward (r.forward c) = c := by
  have hilt : alphabet.indexOf c < 26 := by
    have hx := indexOf_lt_of_mem alphabet c hc
    rwa [alphabet_length] at hx
  have hk0 : 0 ≤ jsmod ((alphabet.indexOf c : Int) + r.position - r.ringSetting) 26 :=
    jsmod_nonneg _
  have hk1 : jsmod ((alphabet.indexOf c : Int) + r.position - r.ringSetting) 26 < 26 :=
    jsmod_lt _
  have hkl : (jsmod ((alphabet.indexOf c : Int) + r.position - r.ringSetting) 26).toNat <
      r.wiring.length := by
    rw [validRotor_length h]; omega
  unfold Rotor.forward Rotor.backward
  rw [jsIndexOf_of_mem _ _ hc]
  rw [jsCharAt_eq_getElem _ _ hk0 hkl]
  rw [jsIndexOf_of_mem _ _ (List.getElem_mem hkl)]
  rw [List.indexOf_getElem (validRotor_nodup h)]
  rw [Int.toNat_of_nonneg hk0]
  have harith :
      jsmod (jsmod ((alphabet.indexOf c : Int) + r.position - r.ringSetting) 26 -
        r.position + r.ringSetting) 26 = (alphabet.indexOf c : Int) := by
    rw [jsmod_eq_emod, jsmod_eq_emod]
    omega
  rw [harith]
  have hal : ((alphabet.indexOf c : Int)).toNat < alphabet.length := by
    rw [alphabet_length]; omega
  rw [jsCharAt_eq_getElem _ _ (by omega) hal]
  have hlen : alphabet.indexOf c < alphabet.length := indexOf_lt_of_mem _ _ hc
  exact List.getElem_indexOf hlen

theorem Rotor.forward_backward (r : Rotor) (h : validRotor r) (c : Char)
    (hc : c ∈ alphabet) : r.forward (r.backward c) = c := by
  have hcw : c ∈ r.wiring := (validRotor_mem h).mpr hc
  have hwidx : r.wiring.indexOf c < 26 := by
    have hx := indexOf_lt_of_mem _ _ hcw
    rwa [validRotor_length h] at hx
  have hm0 : 0 ≤ jsmod ((r.wiring.indexOf c : Int) - r.position + r.ringSetting) 26 :=
    jsmod_nonneg _
  have hm1 : jsmod ((r.wiring.indexOf c : Int) - r.position + r.ringSetting) 26 < 26 :=
    jsmod_lt _
  have hml : (jsmod ((r.wiring.indexOf c : Int) - r.position + r.ringSetting) 26).toNat <
      alphabet.length := by
    rw [alphabet_length]; omega
  unfold Rotor.backward Rotor.forward
  rw [jsIndexOf_of_mem _ _ hcw]
  rw [jsCharAt_eq_getElem _ _ hm0 hml]
  rw [jsIndexOf_of_mem _ _ (List.getElem_mem hml)]
  rw [List.indexOf_getElem alphabet_nodup]
  rw [Int.toNat_of_nonneg hm0]
  have harith :
      jsmod (jsmod ((r.wiring.indexOf c : Int) - r.position + r.ringSetting) 26 +
        r.position - r.ringSetting) 26 = (r.wiring.indexOf c : Int) := by
    rw [jsmod_eq_emod, jsmod_eq_emod]
    omega
  rw [harith]
  have hwl : ((r.wiring.indexOf c : Int)).toNat < r.wiring.length := by
    rw [validRotor_length h]; omega
  rw [jsCharAt_eq_getElem _ _ (by omega) hwl]
  exact List.getElem_indexOf (indexOf_lt_of_mem _ _ hcw)

/-! ### Plugboard lemmas -/

theorem pairLetters_of_pair_mem {pairs : List (Char × Char)} {a b : Char}
    (h : (a, b) ∈ pairs) : a ∈ pairLetters pairs ∧ b ∈ pairLetters pairs := by
  induction pairs with
  | nil => cases h
  | cons p rest ih =>
    obtain ⟨x, y⟩ := p
    unfold pairLetters
    rcases List.mem_cons.mp h with heq | hmem
    · obtain ⟨hx, hy⟩ := Prod.mk.injEq .. ▸ heq
      subst hx; subst hy
      exact ⟨List.mem_cons_self _ _, List.mem_cons_of_mem _ (List.mem_cons_self _ _)⟩
    · obtain ⟨ha, hb⟩ := ih hmem
      exact ⟨List.mem_cons_of_mem _ (List.mem_cons_of_mem _ ha),
        List.mem_cons_of_mem _ (List.mem_cons_of_mem _ hb)⟩

theorem plugboardSwap_eq_or_mem (c : Char) (pairs : List (Char × Char)) :
    plugboardSwap c pairs = c ∨ plugboardSwap c pairs ∈ pairLetters pairs := by
  induction pairs with
  | nil => exact Or.inl rfl
  | cons p rest ih =>
    obtain ⟨a, b⟩ := p
    unfold plugboardSwap pairLetters
    by_cases hca : c = a
    · rw [if_pos hca]
      exact Or.inr (List.mem_cons_of_mem _ (List.mem_cons_self _ _))
    · rw [if_neg hca]
      by_cases hcb : c = b
      · rw [if_pos hcb]
        exact Or.inr (List.mem_cons_self _ _)
      · rw [if_neg hcb]
        rcases ih with h | h
        · exact Or.inl h
        · exact Or.inr (List.mem_cons_of_mem _ (List.mem_cons_of_mem _ h))

theorem plugboardSwap_of_not_mem (c : Char) (pairs : List (Char × Char))
    (h : c ∉ pairLetters pairs) : plugboardSwap c pairs = c := by
  induction pairs with
  | nil => rfl
  | cons p rest ih =>
    obtain ⟨a, b⟩ := p
    unfold pairLetters at h
    unfold plugboardSwap
    have hca : c ≠ a := fun hc => h (hc ▸ List.mem_cons_self _ _)
    have hcb : c ≠ b := fun hc =>
      h (List.mem_cons_of_mem _ (hc ▸ List.mem_cons_self _ _))
    rw [if_neg hca, if_neg hcb]
    exact ih fun hc => h (List.mem_cons_of_mem _ (List.mem_cons_of_mem _ hc))

theorem plugboardSwap_mem_alphabet (c : Char) (pairs : List (Char × Char))
    (hv : validPairs pairs) (hc : c ∈ alphabet) : plugboardSwap c pairs ∈ alphabet := by
  rcases plugboardSwap_eq_or_mem c pairs with h | h
  · rwa [h]
  · exact hv.2 _ h

theorem plugboardSwap_cons (c a b : Char) (rest : List (Char × Char)) :
    plugboardSwap c ((a, b) :: rest) =
      if c = a then b else if c = b then a else plugboardSwap c rest := rfl

theorem plugboardSwap_swap (c : Char) (pairs : List (Char × Char))
    (hnd : (pairLetters pairs).Nodup) :
    plugboardSwap (plugboardSwap c pairs) pairs = c := by
  induction pairs with
  | nil => rfl
  | cons p rest ih =>
    obtain ⟨a, b⟩ := p
    have hnd2 : (a :: b :: pairLetters rest).Nodup := hnd
    have hab : a ≠ b := by
      intro hab
      exact (List.nodup_cons.mp hnd2).1 (hab ▸ List.mem_cons_self _ _)
    have ha : a ∉ pairLetters rest := fun hmem =>
      (List.nodup_cons.mp hnd2).1 (List.mem_cons_of_mem _ hmem)
    have hb : b ∉ pairLetters rest :=
      (List.nodup_cons.mp (List.nodup_cons.mp hnd2).2).1
    have hndr : (pairLetters rest).Nodup :=
      (List.nodup_cons.mp (List.nodup_cons.mp hnd2).2).2
    by_cases hca : c = a
    · subst hca
      have h1 : plugboardSwap c ((c, b) :: rest) = b := by
        rw [plugboardSwap_cons, if_pos rfl]
      rw [h1, plugboardSwap_cons, if_neg (Ne.symm hab), if_pos rfl]
    · by_cases hcb : c = b
      · subst hcb
        have h1 : plugboardSwap c ((a, c) :: rest) = a := by
          rw [plugboardSwap_cons, if_neg hca, if_pos rfl]
        rw [h1, plugboardSwap_cons, if_pos rfl]
      · have h1 : plugboardSwap c ((a, b) :: rest) = plugboardSwap c rest := by
          rw [plugboardSwap_cons, if_neg hca, if_neg hcb]
        have hda : plugboardSwap c rest ≠ a := by
          rcases plugboardSwap_eq_or_mem c rest with h | h
          · rw [h]; exact hca
          · intro hd; exact ha (hd ▸ h)
        have hdb : plugboardSwap c rest ≠ b := by
          rcases plugboardSwap_eq_or_mem c rest with h | h
          · rw [h]; exact hcb
          · intro hd; exact hb (hd ▸ h)
        rw [h1, plugboardSwap_cons, if_neg hda, if_neg hdb]
        exact ih hndr

theorem plugboardSwap_pair (pairs : List (Char × Char))
    (hnd : (pairLetters pairs).Nodup) (a b : Char) (hmem : (a, b) ∈ pairs) :
    plugboardSwap a pairs = b ∧ plugboardSwap b pairs = a := by
  induction pairs with
  | nil => cases hmem
  | cons p rest ih =>
    obtain ⟨x, y⟩ := p
    have hnd2 : (x :: y :: pairLetters rest).Nodup := hnd
    have hxy : x ≠ y := by
      intro hxy
      exact (List.nodup_cons.mp hnd2).1 (hxy ▸ List.mem_cons_self _ _)
    have hx : x ∉ pairLetters rest := fun hm =>
      (List.nodup_cons.mp hnd2).1 (List.mem_cons_of_mem _ hm)
    have hy : y ∉ pairLetters rest :=
      (List.nodup_cons.mp (List.nodup_cons.mp hnd2).2).1
    have hndr : (pairLetters rest).Nodup :=
      (List.nodup_cons.mp (List.nodup_cons.mp hnd2).2).2
    rcases List.mem_cons.mp hmem with heq | hmem2
    · obtain ⟨hax, hby⟩ := Prod.mk.injEq .. ▸ heq
      subst hax; subst hby
      constructor
      · rw [plugboardSwap_cons, if_pos rfl]
      · rw [plugboardSwap_cons, if_neg (Ne.symm hxy), if_pos rfl]
    · obtain ⟨haL, hbL⟩ := pairLetters_of_pair_mem hmem2
      have hax : a ≠ x := fun hc => hx (hc ▸ haL)
      have hay : a ≠ y := fun hc => hy (hc ▸ haL)
      have hbx : b ≠ x := fun hc => hx (hc ▸ hbL)
      have hby : b ≠ y := fun hc => hy (hc ▸ hbL)
      rw [plugboardSwap_cons, if_neg hax, if_neg hay,
        plugboardSwap_cons, if_neg hbx, if_neg hby]
      exact ih hndr hmem2

/-! ### Reflector lemmas -/

theorem reflect_facts : ∀ c ∈ alphabet,
    reflect (reflect c) = c ∧ reflect c ≠ c ∧ reflect c ∈ alphabet := by
  intro c hc
  fin_cases hc <;> exact ⟨by decide, by decide, by decide⟩

/-! ### Rotor-stack pass lemmas -/

theorem forwardPass_nil (c : Char) : forwardPass [] c = c := rfl

theorem forwardPass_cons (r : Rotor) (rs : List Rotor) (c : Char) :
    forwardPass (r :: rs) c = r.forward (forwardPass rs c) := rfl

theorem backwardPass_nil (c : Char) : backwardPass [] c = c := rfl

theorem backwardPass_cons (r : Rotor) (rs : List Rotor) (c : Char) :
    backwardPass (r :: rs) c = backwardPass rs (r.backward c) := rfl

theorem forwardPass_mem (rs : List Rotor) (h : ∀ r ∈ rs, validRotor r) (c : Char)
    (hc : c ∈ alphabet) : forwardPass rs c ∈ alphabet := by
  induction rs with
  | nil => exact hc
  | cons r rs ih =>
    rw [forwardPass_cons]
    exact Rotor.forward_mem _ (h r (List.mem_cons_self _ _)) _

theorem backwardPass_mem (rs : List Rotor) (c : Char) (hc : c ∈ alphabet) :
    backwardPass rs c ∈ alphabet := by
  induction rs generalizing c with
  | nil => exact hc
  | cons r rs ih =>
    rw [backwardPass_cons]
    exact ih _ (Rotor.backward_mem _ _)

theorem backwardPass_forwardPass (rs : List Rotor) (h : ∀ r ∈ rs, validRotor r)
    (c : Char) (hc : c ∈ alphabet) : backwardPass rs (forwardPass rs c) = c := by
  induction rs with
  | nil => rfl
  | cons r rs ih =>
    rw [forwardPass_cons, backwardPass_cons]
    have hmem : forwardPass rs c ∈ alphabet :=
      forwardPass_mem rs (fun x hx => h x (List.mem_cons_of_mem _ hx)) c hc
    rw [Rotor.backward_forward r (h r (List.mem_cons_self _ _)) _ hmem]
    exact ih fun x hx => h x (List.mem_cons_of_mem _ hx)

theorem forwardPass_backwardPass (rs : List Rotor) (h : ∀ r ∈ rs, validRotor r)
    (c : Char) (hc : c ∈ alphabet) : forwardPass rs (backwardPass rs c) = c := by
  induction rs generalizing c with
  | nil => rfl
  | cons r rs ih =>
    rw [backwardPass_cons, forwardPass_cons]
    rw [ih (fun x hx => h x (List.mem_cons_of_mem _ hx)) _ (Rotor.backward_mem _ _)]
    exact Rotor.forward_backward r (h r (List.mem_cons_self _ _)) _ hc

/-! ### Per-letter substitution lemmas -/

theorem cipherMap_mem (rs : List Rotor) (pairs : List (Char × Char))
    (hr : ∀ r ∈ rs, validRotor r) (hp : validPairs pairs) (c : Char)
    (hc : c ∈ alphabet) : cipherMap rs pairs c ∈ alphabet := by
  unfold cipherMap
  apply plugboardSwap_mem_alphabet _ _ hp
  apply backwardPass_mem
  exact (reflect_facts _ (forwardPass_mem rs hr _
    (plugboardSwap_mem_alphabet _ _ hp hc))).2.2

theorem cipherMap_cipherMap (rs : List Rotor) (pairs : List (Char × Char))
    (hr : ∀ r ∈ rs, validRotor r) (hp : validPairs pairs) (c : Char)
    (hc : c ∈ alphabet) : cipherMap rs pairs (cipherMap rs pairs c) = c := by
  unfold cipherMap
  have h1 : plugboardSwap c pairs ∈ alphabet := plugboardSwap_mem_alphabet _ _ hp hc
  have h2 : forwardPass rs (plugboardSwap c pairs) ∈ alphabet :=
    forwardPass_mem rs hr _ h1
  have h3 : reflect (forwardPass rs (plugboardSwap c pairs)) ∈ alphabet :=
    (reflect_facts _ h2).2.2
  rw [plugboardSwap_swap _ _ hp.1]
  rw [forwardPass_backwardPass rs hr _ h3]
  rw [(reflect_facts _ h2).1]
  rw [backwardPass_forwardPass rs hr _ h1]
  rw [plugboardSwap_swap _ _ hp.1]

theorem plugboardSwap_injective (pairs : List (Char × Char))
    (hnd : (pairLetters pairs).Nodup) {a b : Char}
    (h : plugboardSwap a pairs = plugboardSwap b pairs) : a = b := by
  have ha := plugboardSwap_swap a pairs hnd
  have hb := plugboardSwap_swap b pairs hnd
  rw [← ha, ← hb, h]

theorem cipherMap_ne (rs : List Rotor) (pairs : List (Char × Char))
    (hr : ∀ r ∈ rs, validRotor r) (hp : validPairs pairs) (c : Char)
    (hc : c ∈ alphabet) : cipherMap rs pairs c ≠ c := by
  intro hfix
  have h1 : plugboardSwap c pairs ∈ alphabet := plugboardSwap_mem_alphabet _ _ hp hc
  have h2 : forwardPass rs (plugboardSwap c pairs) ∈ alphabet :=
    forwardPass_mem rs hr _ h1
  have h3 : reflect (forwardPass rs (plugboardSwap c pairs)) ∈ alphabet :=
    (reflect_facts _ h2).2.2
  unfold cipherMap at hfix
  have hswap : plugboardSwap (plugboardSwap c pairs) pairs = c :=
    plugboardSwap_swap c pairs hp.1
  have hinj :
      backwardPass rs (reflect (forwardPass rs (plugboardSwap c pairs))) =
        plugboardSwap c pairs :=
    plugboardSwap_injective pairs hp.1 (hfix.trans hswap.symm)
  have happ := congrArg (forwardPass rs) hinj
  rw [forwardPass_backwardPass rs hr _ h3] at happ
  exact (reflect_facts _ h2).2.1 happ

/-! ### Stepping lemmas -/

theorem validRotor_step (r : Rotor) : validRotor r.step ↔ validRotor r := Iff.rfl

theorem stepRotors_plugboardPairs (e : Enigma) :
    e.stepRotors.plugboardPairs = e.plugboardPairs := by
  rcases e with ⟨rs, P⟩
  rcases rs with _ | ⟨a, _ | ⟨b, _ | ⟨c, _ | ⟨d, tl⟩⟩⟩⟩ <;> rfl

theorem stepRotors_valid (e : Enigma) (h : ∀ r ∈ e.rotors, validRotor r) :
    ∀ r ∈ e.stepRotors.rotors, validRotor r := by
  rcases e with ⟨rs, P⟩
  rcases rs with _ | ⟨a, _ | ⟨b, _ | ⟨c, _ | ⟨d, tl⟩⟩⟩⟩
  · exact h
  · exact h
  · exact h
  · intro r hr
    simp only [Enigma.stepRotors, List.mem_cons, List.not_mem_nil, or_false] at hr
    rcases hr with rfl | rfl | rfl
    · split
      · exact h a (by simp)
      · exact h a (by simp)
    · split
      · exact h b (by simp)
      · exact h b (by simp)
    · exact h c (by simp)
  · exact h

theorem validEngine_stepRotors (e : Enigma) (h : validEngine e) :
    validEngine e.stepRotors := by
  constructor
  · exact stepRotors_valid e h.1
  · rw [stepRotors_plugboardPairs]; exact h.2

/-! ### encryptChar characterization -/

theorem encryptChar_letter (e : Enigma) (c : Char) (hc : c ∈ alphabet) :
    e.encryptChar c = (cipherMap e.stepRotors.rotors e.plugboardPairs c, e.stepRotors) := by
  simp only [Enigma.encryptChar, if_pos hc, cipherMap, forwardPass, backwardPass,
    reflect, stepRotors_plugboardPairs]

theorem encryptChar_nonletter (e : Enigma) (c : Char) (hc : c ∉ alphabet) :
    e.encryptChar c = (c, e) := by
  simp only [Enigma.encryptChar, if_neg hc]

/-! ### Processing lemmas -/

theorem processGo_nil (e : Enigma) : e.processGo [] = ([], e) := rfl

theorem processGo_cons (e : Enigma) (c : Char) (cs : List Char) :
    e.processGo (c :: cs) =
      ((e.encryptChar c).1 :: ((e.encryptChar c).2.processGo cs).1,
        ((e.encryptChar c).2.processGo cs).2) := rfl

theorem processGo_length (e : Enigma) (t : List Char) :
    (e.processGo t).1.length = t.length := by
  induction t generalizing e with
  | nil => rfl
  | cons c cs ih =>
    rw [processGo_cons]
    simp only [List.length_cons, ih]

theorem processGo_mem (e : Enigma) (hv : validEngine e) (t : List Char)
    (ht : ∀ c ∈ t, c ∈ alphabet) : ∀ d ∈ (e.processGo t).1, d ∈ alphabet := by
  induction t generalizing e with
  | nil => intro d hd; cases hd
  | cons c cs ih =>
    intro d hd
    rw [processGo_cons] at hd
    have hc : c ∈ alphabet := ht c (List.mem_cons_self _ _)
    rw [encryptChar_letter e c hc] at hd
    rcases List.mem_cons.mp hd with rfl | hd2
    · exact cipherMap_mem _ _ (stepRotors_valid e hv.1) hv.2 c hc
    · exact ih e.stepRotors (validEngine_stepRotors e hv)
        (fun x hx => ht x (List.mem_cons_of_mem _ hx)) d hd2

theorem processGo_processGo (e : Enigma) (hv : validEngine e) (t : List Char)
    (ht : ∀ c ∈ t, c ∈ alphabet) : (e.processGo (e.processGo t).1).1 = t := by
  induction t generalizing e with
  | nil => rfl
  | cons c cs ih =>
    have hc : c ∈ alphabet := ht c (List.mem_cons_self _ _)
    have hv1 : validEngine e.stepRotors := validEngine_stepRotors e hv
    have hd : cipherMap e.stepRotors.rotors e.plugboardPairs c ∈ alphabet :=
      cipherMap_mem _ _ (stepRotors_valid e hv.1) hv.2 c hc
    rw [processGo_cons, encryptChar_letter e c hc]
    rw [processGo_cons, encryptChar_letter e _ hd]
    rw [cipherMap_cipherMap _ _ (stepRotors_valid e hv.1) hv.2 c hc]
    rw [ih e.stepRotors hv1 (fun x hx => ht x (List.mem_cons_of_mem _ hx))]

/-! ### Uppercasing lemmas -/

theorem toUpper_of_mem_alphabet : ∀ c ∈ alphabet, Char.toUpper c = c := by
  intro c hc
  fin_cases hc <;> decide

theorem toUpper_of_mem_lower : ∀ c ∈ lowerAlphabet, Char.toUpper c ∈ alphabet := by
  intro c hc
  fin_cases hc <;> decide

theorem toUpper_ne_of_mem_lower : ∀ c ∈ lowerAlphabet, Char.toUpper c ≠ c := by
  intro c hc
  fin_cases hc <;> decide

theorem not_mem_alphabet_of_mem_lower : ∀ c ∈ lowerAlphabet, c ∉ alphabet := by
  intro c hc
  fin_cases hc <;> decide

theorem mem_lowerAlphabet_of_range (c : Char) (h1 : 97 ≤ c.toNat) (h2 : c.toNat ≤ 122) :
    c ∈ lowerAlphabet := by
  obtain ⟨n, hn⟩ : ∃ n, c.toNat = n := ⟨_, rfl⟩
  rw [hn] at h1 h2
  interval_cases n <;> (rw [← Char.ofNat_toNat c, hn]; decide)

theorem toUpper_of_not_letter (c : Char) (h : ¬ isAsciiLetter c) :
    Char.toUpper c = c := by
  have hrange : ¬(97 ≤ c.toNat ∧ c.toNat ≤ 122) := by
    intro hr
    exact h (Or.inr (mem_lowerAlphabet_of_range c hr.1 hr.2))
  simp only [Char.toUpper]
  rw [if_neg hrange]

theorem toUpper_mem_of_letter (c : Char) (h : isAsciiLetter c) :
    Char.toUpper c ∈ alphabet := by
  rcases h with h | h
  · rw [toUpper_of_mem_alphabet c h]; exact h
  · exact toUpper_of_mem_lower c h

theorem map_toUpper_of_mem_alphabet (t : List Char) (ht : ∀ c ∈ t, c ∈ alphabet) :
    t.map Char.toUpper = t := by
  induction t with
  | nil => rfl
  | cons c cs ih =>
    rw [List.map_cons, toUpper_of_mem_alphabet c (ht c (List.mem_cons_self _ _)),
      ih fun x hx => ht x (List.mem_cons_of_mem _ hx)]

/-! ### Constructed engines are valid -/

theorem mkEnigma_rotors (i j k : Nat) (p0 p1 p2 r0 r1 r2 : Int)
    (pairs : List (Char × Char)) :
    (mkEnigma [i, j, k] [p0, p1, p2] [r0, r1, r2] pairs).rotors =
      [{ wiring := (ROTORS.getD i ([], Char.ofNat 0)).1
         notch := (ROTORS.getD i ([], Char.ofNat 0)).2
         ringSetting := r0, position := p0 },
       { wiring := (ROTORS.getD j ([], Char.ofNat 0)).1
         notch := (ROTORS.getD j ([], Char.ofNat 0)).2
         ringSetting := r1, position := p1 },
       { wiring := (ROTORS.getD k ([], Char.ofNat 0)).1
         notch := (ROTORS.getD k ([], Char.ofNat 0)).2
         ringSetting := r2, position := p2 }] := rfl

theorem mkEnigma_plugboardPairs (ids : List Nat) (poss rings : List Int)
    (pairs : List (Char × Char)) :
    (mkEnigma ids poss rings pairs).plugboardPairs = pairs := rfl

theorem catalog_perm (id : Nat) (hid : id < 3) :
    (ROTORS.getD id ([], Char.ofNat 0)).1.Perm alphabet := by
  interval_cases id <;> exact List.isPerm_iff.mp (by decide)

theorem mkEnigma_valid (i j k : Nat) (hi : i < 3) (hj : j < 3) (hk : k < 3)
    (p0 p1 p2 r0 r1 r2 : Int) (pairs : List (Char × Char)) (hp : validPairs pairs) :
    validEngine (mkEnigma [i, j, k] [p0, p1, p2] [r0, r1, r2] pairs) := by
  constructor
  · intro r hr
    rw [mkEnigma_rotors] at hr
    simp only [List.mem_cons, List.not_mem_nil, or_false] at hr
    rcases hr with rfl | rfl | rfl
    · exact catalog_perm i hi
    · exact catalog_perm j hj
    · exact catalog_perm k hk
  · exact hp

/-! ### Claim theorems -/

/-- C7.  Plugboard involution: for every character `c` and every valid
plugboard pair set (disjoint pairs, each letter used at most once),
`swap(swap(c, P), P) = c`; `swap` returns the partner letter of any pair
containing `c`, and returns `c` unchanged when `c` occurs in no pair. -/
theorem plugboard_involution (pairs : List (Char × Char)) (hv : validPairs pairs)
    (c : Char) :
    plugboardSwap (plugboardSwap c pairs) pairs = c ∧
    (∀ a b, (a, b) ∈ pairs → plugboardSwap a pairs = b ∧ plugboardSwap b pairs = a) ∧
    (c ∉ pairLetters pairs → plugboardSwap c pairs = c) :=
  ⟨plugboardSwap_swap c pairs hv.1,
   fun a b h => plugboardSwap_pair pairs hv.1 a b h,
   fun h => plugboardSwap_of_not_mem c pairs h⟩

/-- Witness for C7 at the concrete pair list `[QW, ER]` and character
`Q`. -/
theorem plugboard_involution_witness :
    plugboardSwap (plugboardSwap 'Q' [('Q', 'W'), ('E', 'R')]) [('Q', 'W'), ('E', 'R')] = 'Q' :=
  (plugboard_involution [('Q', 'W'), ('E', 'R')] (by decide) 'Q').1

/-- C8.  Rotor round-trip: for every rotor whose wiring is a bijection of
the alphabet and whose position and ring setting lie in the range 0 - 25,
`backward (forward x) = x` and `forward (backward x) = x` for every
letter `x`, and `forward` is a bijection of the 26 letters (it maps the
alphabet into itself, injectively and surjectively). -/
theorem rotor_roundtrip (r : Rotor) (hw : validRotor r)
    (_hpos : 0 ≤ r.position ∧ r.position ≤ 25)
    (_hring : 0 ≤ r.ringSetting ∧ r.ringSetting ≤ 25) :
    (∀ c ∈ alphabet, r.backward (r.forward c) = c) ∧
    (∀ c ∈ alphabet, r.forward (r.backward c) = c) ∧
    (∀ c ∈ alphabet, r.forward c ∈ alphabet) ∧
    (∀ a ∈ alphabet, ∀ b ∈ alphabet, r.forward a = r.forward b → a = b) ∧
    (∀ y ∈ alphabet, ∃ x, x ∈ alphabet ∧ r.forward x = y) := by
  refine ⟨fun c hc => Rotor.backward_forward r hw c hc,
    fun c hc => Rotor.forward_backward r hw c hc,
    fun c hc => Rotor.forward_mem r hw c, ?_, ?_⟩
  · intro a ha b hb hab
    have h1 := Rotor.backward_forward r hw a ha
    have h2 := Rotor.backward_forward r hw b hb
    rw [← h1, ← h2, hab]
  · intro y hy
    exact ⟨r.backward y, Rotor.backward_mem r y, Rotor.forward_backward r hw y hy⟩

/-- Witness for C8 at Rotor I with position 0, ring setting 0 and letter
`A`. -/
theorem rotor_roundtrip_witness : rotorI.backward (rotorI.forward 'A') = 'A' :=
  (rotor_roundtrip rotorI (List.isPerm_iff.mp (by decide)) (by decide) (by decide)).1
    'A' (by decide)

/-- C9.  Reflector invariants: the fixed reflector table satisfies
`reflect (reflect x) = x` for every letter `x`, and `reflect x` differs
from `x` for all 26 letters. -/
theorem reflector_involution : ∀ c ∈ alphabet,
    reflect (reflect c) = c ∧ reflect c ≠ c :=
  fun c hc => ⟨(reflect_facts c hc).1, (reflect_facts c hc).2.1⟩

/-- Witness for C9 at the letter `A`. -/
theorem reflector_involution_witness :
    reflect (reflect 'A') = 'A' ∧ reflect 'A' ≠ 'A' :=
  reflector_involution 'A' (by decide)

/-- C2.  Stepping coordinator: for every engine with pre-step rotors
`[l, m, r]`, the step decisions are computed from the pre-step notch
states — the right rotor always steps, the left rotor steps iff the
middle rotor is at its notch, and the middle rotor steps iff the right
rotor or the middle rotor itself is at its notch (the double-stepping
anomaly) — all three applied simultaneously; `encryptChar` applies them
exactly once per letter and not at all for non-letters. -/
theorem stepping_coordinator (e : Enigma) (l m r : Rotor) (h : e.rotors = [l, m, r]) :
    e.stepRotors = { rotors := [if m.atNotch then l.step else l,
                                if r.atNotch || m.atNotch then m.step else m,
                                r.step],
                     plugboardPairs := e.plugboardPairs } ∧
    (∀ c ∈ alphabet, (e.encryptChar c).2 = e.stepRotors) ∧
    (∀ c, c ∉ alphabet → (e.encryptChar c).2 = e) := by
  refine ⟨?_, ?_, ?_⟩
  · rcases e with ⟨rs, P⟩
    simp only at h
    subst h
    rfl
  · intro c hc
    rw [encryptChar_letter e c hc]
  · intro c hc
    rw [encryptChar_nonletter e c hc]

/-- Witness for C2 at the standard test configuration and the letter
`A`. -/
theorem stepping_coordinator_witness :
    (testEngine.encryptChar 'A').2 = testEngine.stepRotors :=
  (stepping_coordinator testEngine
    { wiring := (ROTORS.getD 0 ([], Char.ofNat 0)).1, notch := 'Q'
      ringSetting := 0, position := 0 }
    { wiring := (ROTORS.getD 1 ([], Char.ofNat 0)).1, notch := 'E'
      ringSetting := 0, position := 0 }
    { wiring := (ROTORS.getD 2 ([], Char.ofNat 0)).1, notch := 'V'
      ringSetting := 0, position := 0 }
    (by decide)).2.1 'A' (by decide)

/-- C3 counterexample: at the standard test configuration, `encryptChar`
applied to the lowercase letter `h` does not uppercase it and run the
pipeline — it returns `h` unchanged without stepping, refuting the claim
that every ASCII letter is uppercased and substituted by
`encryptChar`. -/
theorem pipeline_counterexample :
    ¬ (testEngine.encryptChar 'h' =
        (cipherMap testEngine.stepRotors.rotors testEngine.plugboardPairs
          (Char.toUpper 'h'), testEngine.stepRotors)) := by decide

/-- C3 (amended).  Per-letter pipeline: for every engine and uppercase
letter `c`, `encryptChar` runs the stepping coordinator once and then
applies plugboard swap, the rotor forward maps right to left, the
reflector, the rotor backward maps left to right, and the plugboard swap
a second time, returning exactly that result together with the stepped
engine; characters outside the uppercase alphabet — including lowercase
letters, which are uppercased by `process` before they reach
`encryptChar` — are returned unchanged with no state change. -/
theorem encryptChar_pipeline (e : Enigma) (c : Char) :
    (c ∈ alphabet →
      e.encryptChar c = (cipherMap e.stepRotors.rotors e.plugboardPairs c,
        e.stepRotors)) ∧
    (c ∉ alphabet → e.encryptChar c = (c, e)) :=
  ⟨fun hc => encryptChar_letter e c hc, fun hc => encryptChar_nonletter e c hc⟩

/-- Witness for C3 at the standard test configuration and the letter
`A`. -/
theorem encryptChar_pipeline_witness :
    testEngine.encryptChar 'A' =
      (cipherMap testEngine.stepRotors.rotors testEngine.plugboardPairs 'A',
        testEngine.stepRotors) :=
  (encryptChar_pipeline testEngine 'A').1 (by decide)

/-- C5.  Non-letter pass-through and framing: processing preserves the
length of the text, every non-letter character appears verbatim at its
original index of the output, and `encryptChar` on a non-letter returns
the character with the engine — in particular the rotor positions —
completely unchanged. -/
theorem nonletter_passthrough (e : Enigma) (t : List Char) :
    ((e.process t).1.length = t.length) ∧
    (∀ i (hi : i < t.length), ¬ isAsciiLetter (t.get ⟨i, hi⟩) →
      (e.process t).1.getD i (Char.ofNat 0) = t.get ⟨i, hi⟩) ∧
    (∀ c, ¬ isAsciiLetter c → e.encryptChar c = (c, e)) := by
  refine ⟨?_, ?_, ?_⟩
  · unfold Enigma.process
    rw [processGo_length, List.length_map]
  · intro i hi hnl
    unfold Enigma.process
    induction t generalizing e i with
    | nil => cases hi
    | cons c cs ih =>
      rw [List.map_cons, processGo_cons]
      cases i with
      | zero =>
        simp only [List.get] at hnl
        have hup : Char.toUpper c = c := toUpper_of_not_letter c hnl
        have hna : c ∉ alphabet := fun hmem => hnl (Or.inl hmem)
        rw [hup, encryptChar_nonletter e c hna]
        rfl
      | succ n =>
        have hn : n < cs.length := Nat.lt_of_succ_lt_succ hi
        simp only [List.get] at hnl ⊢
        simp only [List.getD_cons_succ]
        exact ih _ n hn hnl
  · intro c hc
    exact encryptChar_nonletter e c fun hmem => hc (Or.inl hmem)

/-- Witness for C5: the digit `1` passes through at index 1 of the text
`A1`. -/
theorem nonletter_passthrough_witness :
    (testEngine.process ['A', '1']).1.getD 1 (Char.ofNat 0) = '1' :=
  (nonletter_passthrough testEngine ['A', '1']).2.1 1 (by decide) (by decide)

set_option maxRecDepth 8000 in
/-- C1 counterexample: the standard test configuration is a valid
configuration and `h` is a letters-only text, yet processing the output
of processing `h` yields `H`, not `h` — the claim fails for lowercase
letters-only texts. -/
theorem reciprocity_counterexample :
    (testEngine.process ((testEngine.process ['h']).1)).1 = ['H'] ∧
      ('H' : Char) ≠ 'h' := by decide

/-- C1 (amended).  Reciprocity up to uppercasing: for every valid
configuration (three catalog rotor identifiers, any initial positions and
ring settings, a valid plugboard pair set) and every letters-only text
`T`, processing with a fresh engine the output of processing `T` with an
identically configured fresh engine yields the uppercase of `T` — equal
to `T` itself whenever `T` is already uppercase. -/
theorem reciprocity (i j k : Nat) (hi : i < 3) (hj : j < 3) (hk : k < 3)
    (p0 p1 p2 r0 r1 r2 : Int) (pairs : List (Char × Char)) (hp : validPairs pairs)
    (t : List Char) (ht : ∀ c ∈ t, isAsciiLetter c) :
    ((mkEnigma [i, j, k] [p0, p1, p2] [r0, r1, r2] pairs).process
      (((mkEnigma [i, j, k] [p0, p1, p2] [r0, r1, r2] pairs).process t).1)).1
      = t.map Char.toUpper := by
  have hv : validEngine (mkEnigma [i, j, k] [p0, p1, p2] [r0, r1, r2] pairs) :=
    mkEnigma_valid i j k hi hj hk p0 p1 p2 r0 r1 r2 pairs hp
  have h1 : ∀ c ∈ t.map Char.toUpper, c ∈ alphabet := by
    intro c hc
    obtain ⟨x, hx, rfl⟩ := List.mem_map.mp hc
    exact toUpper_mem_of_letter x (ht x hx)
  unfold Enigma.process
  have h2 := processGo_mem (mkEnigma [i, j, k] [p0, p1, p2] [r0, r1, r2] pairs) hv
    (t.map Char.toUpper) h1
  rw [map_toUpper_of_mem_alphabet _ h2]
  exact processGo_processGo _ hv _ h1

set_option maxRecDepth 8000 in
/-- Witness for C1 at rotors I, II, III, all settings zero, plugboard
`[QW]` and the uppercase text `HELLO`. -/
theorem reciprocity_witness :
    ((mkEnigma [0, 1, 2] [0, 0, 0] [0, 0, 0] [('Q', 'W')]).process
      (((mkEnigma [0, 1, 2] [0, 0, 0] [0, 0, 0] [('Q', 'W')]).process
        "HELLO".toList).1)).1 = "HELLO".toList :=
  reciprocity 0 1 2 (by decide) (by decide) (by decide) 0 0 0 0 0 0
    [('Q', 'W')] (by decide) "HELLO".toList (by decide)

set_option maxRecDepth 8000 in
/-- C4.  Fixed end-to-end vector: the engine with rotor order I, II, III,
initial positions 0, 0, 0, ring settings 0, 0, 0 and plugboard pairs
`[QW, ER]` maps the input `HELLOWORLD` to the regression fixture
`VDACACJJEA` locked by the test suite. -/
theorem fixed_vector :
    ((mkEnigma [0, 1, 2] [0, 0, 0] [0, 0, 0] [('Q', 'W'), ('E', 'R')]).process
      "HELLOWORLD".toList).1 = "VDACACJJEA".toList := by decide

/-- C10.  No self-encryption: for every valid engine (catalog-style
bijective rotor wirings, valid plugboard) in any rotor state, and every
ASCII letter `c`, `encryptChar` never outputs the uppercase of `c`
itself. -/
theorem no_self_encryption (e : Enigma) (hv : validEngine e) (c : Char)
    (hc : isAsciiLetter c) : (e.encryptChar c).1 ≠ Char.toUpper c := by
  rcases hc with hup | hlow
  · rw [encryptChar_letter e c hup, toUpper_of_mem_alphabet c hup]
    exact cipherMap_ne _ _ (stepRotors_valid e hv.1) hv.2 c hup
  · have hna : c ∉ alphabet := not_mem_alphabet_of_mem_lower c hlow
    rw [encryptChar_nonletter e c hna]
    exact Ne.symm (toUpper_ne_of_mem_lower c hlow)

/-- Witness for C10 at the standard test configuration and the letter
`A`. -/
theorem no_self_encryption_witness : (testEngine.encryptChar 'A').1 ≠ 'A' :=
  no_self_encryption testEngine (by decide) 'A' (by decide)

/-- C6.  Eager construction validation: checked construction returns the
fully built engine exactly when the configuration satisfies all the
invariants of spec §7, and raises a `ConfigurationError` — with no
partially built engine — exactly when some invariant fails: a selected
rotor wiring that is not a bijection of the alphabet, a ring setting or
initial position outside the range 0 - 25, a plugboard letter used twice,
or a reflector that is not a fixed-point-free involution.  Per-character
processing is total by construction (`encryptChar` and `process` return
plain values, never an error). -/
theorem construction_validation (ids : List Nat) (poss rings : List Int)
    (pairs : List (Char × Char)) :
    (mkEnigmaChecked ids poss rings pairs = .ok (mkEnigma ids poss rings pairs) ↔
      ((∀ id ∈ ids, (ROTORS.getD id ([], Char.ofNat 0)).1.Perm alphabet) ∧
        ((∀ p ∈ poss, 0 ≤ p ∧ p ≤ 25) ∧ (∀ rg ∈ rings, 0 ≤ rg ∧ rg ≤ 25)) ∧
        (pairLetters pairs).Nodup ∧
        (∀ c ∈ alphabet, reflect (reflect c) = c ∧ reflect c ≠ c))) ∧
    ((∃ err, mkEnigmaChecked ids poss rings pairs = .error err) ↔
      ¬ ((∀ id ∈ ids, (ROTORS.getD id ([], Char.ofNat 0)).1.Perm alphabet) ∧
        ((∀ p ∈ poss, 0 ≤ p ∧ p ≤ 25) ∧ (∀ rg ∈ rings, 0 ≤ rg ∧ rg ≤ 25)) ∧
        (pairLetters pairs).Nodup ∧
        (∀ c ∈ alphabet, reflect (reflect c) = c ∧ reflect c ≠ c))) := by
  unfold mkEnigmaChecked
  split_ifs with h1 h2 h3 h4
  · refine ⟨iff_of_true rfl ⟨h1, h2, h3, h4⟩, ?_⟩
    refine iff_of_false ?_ ?_
    · rintro ⟨err, herr⟩
      cases herr
    · intro hng
      exact hng ⟨h1, h2, h3, h4⟩
  · refine ⟨?_, ?_⟩
    · refine iff_of_false ?_ ?_
      · intro heq; cases heq
      · intro hg; exact h4 hg.2.2.2
    · refine iff_of_true ⟨.invalidReflector, rfl⟩ ?_
      intro hg; exact h4 hg.2.2.2
  · refine ⟨?_, ?_⟩
    · refine iff_of_false ?_ ?_
      · intro heq; cases heq
      · intro hg; exact h3 hg.2.2.1
    · refine iff_of_true ⟨.plugboardLetterReuse, rfl⟩ ?_
      intro hg; exact h3 hg.2.2.1
  · refine ⟨?_, ?_⟩
    · refine iff_of_false ?_ ?_
      · intro heq; cases heq
      · intro hg; exact h2 hg.2.1
    · refine iff_of_true ⟨.settingOutOfRange, rfl⟩ ?_
      intro hg; exact h2 hg.2.1
  · refine ⟨?_, ?_⟩
    · refine iff_of_false ?_ ?_
      · intro heq; cases heq
      · intro hg; exact h1 hg.1
    · refine iff_of_true ⟨.invalidRotorWiring, rfl⟩ ?_
      intro hg; exact h1 hg.1

/-- Witness for C6: the standard test configuration is accepted, and a
configuration with initial position 99 is rejected with an error. -/
theorem construction_validation_witness :
    (mkEnigmaChecked [0, 1, 2] [0, 0, 0] [0, 0, 0] [] =
      .ok (mkEnigma [0, 1, 2] [0, 0, 0] [0, 0, 0] [])) ∧
    (∃ err, mkEnigmaChecked [0, 1, 2] [99, 0, 0] [0, 0, 0] [] = .error err) :=
  ⟨(construction_validation [0, 1, 2] [0, 0, 0] [0, 0, 0] []).1.mpr (by decide),
   (construction_validation [0, 1, 2] [99, 0, 0] [0, 0, 0] []).2.mpr (by decide)⟩
